import Mathlib

/-!
Verification model of the live document-store engine behind the
`use-fireproof` apps in `src/src/pages/Index.tsx` (a flashcard trainer and a
caption generator).  The UI handlers (`handleCreateCard`, `handleNextCard`,
`handlePrevCard`, `toggleLike`) are embedded directly from the source; the
store itself (document table, index builder, query engine, live subscription
manager, draft session) is provided by the `use-fireproof` library and is not
part of the repository's sources, so it is modelled from the specification.
-/

namespace LiveStore

/-- Modelled from the spec: field values of a schema-less document, the tagged
union `String | Number | Bool | Mapping | Sequence` of section 9. -/
inductive Value where
  | str (s : String)
  | num (n : Int)
  | bool (b : Bool)
  | map (m : List (String × Value))
  | seq (l : List Value)

/-- Modelled from the spec: a document is an opaque mapping of field names to
values (section 3). -/
abbrev Doc := List (String × Value)

/-- Association-list lookup keyed by strings, returning the first binding. -/
def alistGet {α : Type} : List (String × α) → String → Option α
  | [], _ => none
  | (k, v) :: rest, key => if k = key then some v else alistGet rest key

/-- Association-list assignment keyed by strings: overwrite the first binding
with the key in place, or append a fresh binding. -/
def alistSet {α : Type} : List (String × α) → String → α → List (String × α)
  | [], key, v => [(key, v)]
  | (k, w) :: rest, key, v =>
    if k = key then (key, v) :: rest else (k, w) :: alistSet rest key v

/-- Association-list removal of every binding with the key. -/
def alistDrop {α : Type} (m : List (String × α)) (key : String) : List (String × α) :=
  m.filter (fun kv => kv.1 != key)

/-- Looks a field up in a document, returning the first binding. -/
def lookupField (d : Doc) (f : String) : Option Value := alistGet d f

/-- Byte-wise lexicographic comparison of character lists, used as the
"natural comparison" of string keys and of document identifiers. -/
def listLeB : List Char → List Char → Bool
  | [], _ => true
  | _ :: _, [] => false
  | a :: as, b :: bs =>
    if a.toNat = b.toNat then listLeB as bs else decide (a.toNat ≤ b.toNat)

/-- Lexicographic comparison of strings through their character lists. -/
def strLeB (a b : String) : Bool := listLeB a.data b.data

/-- Modelled from the spec: an index key is a number or a string; the index
builder's missing key type (section 4.2). -/
inductive IKey where
  | num (n : Int)
  | str (s : String)
deriving DecidableEq

/-- Modelled from the spec: total order on heterogeneous keys — numbers order
before strings, then by natural comparison within type (section 4.2). -/
def keyLeB : IKey → IKey → Bool
  | .num a, .num b => decide (a ≤ b)
  | .num _, .str _ => true
  | .str _, .num _ => false
  | .str a, .str b => strLeB a b

/-- Strict version of the key order, for exclusive range bounds. -/
def keyLtB (a b : IKey) : Bool := keyLeB a b && !(decide (a = b))

/-- Modelled from the spec: an index entry is a pair of a key and a document
identifier (section 3). -/
structure Entry where
  key : IKey
  docId : String
deriving DecidableEq

/-- Entry comparison: by key first, ties between equal keys broken by the
document identifier (section 4.3 step 3). -/
def entryLeB (a b : Entry) : Bool :=
  if a.key = b.key then strLeB a.docId b.docId else keyLeB a.key b.key

/-- Modelled from the spec: error kinds surfaced by the store (section 7). -/
inductive Err where
  | notFound
  | unknownIndex
  | storageUnavailable
deriving DecidableEq

/-- Modelled from the spec: a stored document — field contents, a revision
counter and a tombstone flag (section 3). -/
structure StoredDoc where
  fields : Doc
  rev : Nat
  deleted : Bool

/-- Modelled from the spec: the document table plus the single registered
index — canonical documents keyed by identifier, the identifier-minting
counter, the index name, its entry list, and the durable-storage
collaborator's availability (sections 4.1, 4.2, 6). -/
structure Store where
  docs : List (String × StoredDoc)
  nextId : Nat
  idxName : String
  index : List Entry
  storageOk : Bool

/-- Looks an identifier up in the document table (tombstones included). -/
def lookupDoc (l : List (String × StoredDoc)) (id : String) : Option StoredDoc :=
  alistGet l id

/-- Stores a document under an identifier, replacing the first binding with
that identifier or appending a fresh one. -/
def setDoc (l : List (String × StoredDoc)) (id : String) (d : StoredDoc) :
    List (String × StoredDoc) :=
  alistSet l id d

/-- Modelled from the spec: `get` resolves an identifier to its current
document and treats tombstones as absent (section 4.1). -/
def getLive (s : Store) (id : String) : Option StoredDoc :=
  match lookupDoc s.docs id with
  | some sd => if sd.deleted then none else some sd
  | none => none

/-- Mints a fresh identifier from the store's counter. -/
def mintId (n : Nat) : String := "id-" ++ toString n

/-- Keys contributed by an optional document under an extraction rule; an
absent document (a deletion) contributes no keys. -/
def ruleKeys (rule : Doc → List IKey) : Option Doc → List IKey
  | some d => rule d
  | none => []

/-- Modelled from the spec: the index builder's reaction to a change event —
first remove every entry whose identifier matches the changed document, then
insert one entry per key extracted from the new document (section 4.2). -/
def applyChange (rule : Doc → List IKey) (idx : List Entry) (id : String)
    (newDoc : Option Doc) : List Entry :=
  idx.filter (fun e => e.docId != id) ++ (ruleKeys rule newDoc).map (fun k => ⟨k, id⟩)

/-- Modelled from the spec: `put` of a document carrying no identifier — a
fresh identifier is minted and the document inserted at revision 1; the index
is updated by the emitted change event; the write fails with
`StorageUnavailable`, leaving memory untouched, when the durable collaborator
is down (sections 4.1, 6). -/
def putNew (rule : Doc → List IKey) (s : Store) (f : Doc) : Store × Except Err String :=
  if s.storageOk then
    let id := mintId s.nextId
    ({ s with docs := setDoc s.docs id ⟨f, 1, false⟩,
              nextId := s.nextId + 1,
              index := applyChange rule s.index id (some f) }, .ok id)
  else (s, .error .storageUnavailable)

/-- Modelled from the spec: `put` of a document carrying an identifier — a
live document is replaced in full at revision + 1; an absent identifier is a
creation-by-explicit-id insert at revision 1; a tombstoned identifier must not
be reused and fails with `NotFound` (section 4.1). -/
def putExisting (rule : Doc → List IKey) (s : Store) (id : String) (f : Doc) :
    Store × Option Err :=
  match lookupDoc s.docs id with
  | some sd =>
    if sd.deleted then (s, some .notFound)
    else if s.storageOk then
      ({ s with docs := setDoc s.docs id ⟨f, sd.rev + 1, false⟩,
                index := applyChange rule s.index id (some f) }, none)
    else (s, some .storageUnavailable)
  | none =>
    if s.storageOk then
      ({ s with docs := setDoc s.docs id ⟨f, 1, false⟩,
                index := applyChange rule s.index id (some f) }, none)
    else (s, some .storageUnavailable)

/-- Modelled from the spec: `delete` marks a live document as a tombstone,
increments its revision and emits a change event with the new document absent;
it fails with `NotFound` when the identifier is absent or already deleted
(section 4.1). -/
def deleteDoc (rule : Doc → List IKey) (s : Store) (id : String) : Store × Option Err :=
  match lookupDoc s.docs id with
  | some sd =>
    if sd.deleted then (s, some .notFound)
    else if s.storageOk then
      ({ s with docs := setDoc s.docs id ⟨sd.fields, sd.rev + 1, true⟩,
                index := applyChange rule s.index id none }, none)
    else (s, some .storageUnavailable)
  | none => (s, some .notFound)

/-- A write operation against the store. -/
inductive Op where
  | opNew (f : Doc)
  | opPut (id : String) (f : Doc)
  | opDel (id : String)

/-- Applies one write; a failed write leaves the store unchanged. -/
def applyOp (rule : Doc → List IKey) (s : Store) : Op → Store
  | .opNew f => (putNew rule s f).1
  | .opPut id f => (putExisting rule s id f).1
  | .opDel id => (deleteDoc rule s id).1

/-- Applies a sequence of writes in order. -/
def applyOps (rule : Doc → List IKey) (s : Store) (ops : List Op) : Store :=
  ops.foldl (applyOp rule) s

/-- The store holding no documents, with one registered (empty) index. -/
def emptyStore (name : String) : Store := ⟨[], 0, name, [], true⟩

/-- Index keys currently held for one document identifier. -/
def entriesForIdx (idx : List Entry) (id : String) : List IKey :=
  (idx.filter (fun e => e.docId == id)).map (fun e => e.key)

/-- Index keys held for one document identifier in a store. -/
def entriesFor (s : Store) (id : String) : List IKey := entriesForIdx s.index id

/-- Keys the extraction rule produces from a document's current revision;
empty when the document is absent or deleted. -/
def keysCurrent (rule : Doc → List IKey) (s : Store) (id : String) : List IKey :=
  match getLive s id with
  | some sd => rule sd.fields
  | none => []

/-- Modelled from the spec: a query's key filter — an exact key, or a range
with optional low/high bounds, each inclusive or exclusive (sections 3, 4.3). -/
inductive KFilter where
  | exact (k : IKey)
  | range (lo hi : Option (IKey × Bool))
deriving DecidableEq

/-- Checks a key against an optional (inclusive or exclusive) lower bound. -/
def boundLo : Option (IKey × Bool) → IKey → Bool
  | none, _ => true
  | some (l, incl), k => if incl then keyLeB l k else keyLtB l k

/-- Checks a key against an optional (inclusive or exclusive) upper bound. -/
def boundHi : Option (IKey × Bool) → IKey → Bool
  | none, _ => true
  | some (h, incl), k => if incl then keyLeB k h else keyLtB k h

/-- Checks a key against an optional filter; no filter collects every entry. -/
def filtMatches : Option KFilter → IKey → Bool
  | none, _ => true
  | some (.exact f), k => k == f
  | some (.range lo hi), k => boundLo lo k && boundHi hi k

/-- Modelled from the spec: a query descriptor — index name, optional
exact-key or range filter, sort direction and optional result limit
(section 3). -/
structure Query where
  index : String
  filt : Option KFilter
  descending : Bool
  limit : Option Nat

/-- A row of a query result: the key the entry matched under, the document
identifier, and the resolved document's revision and fields. -/
structure QRes where
  key : IKey
  docId : String
  rev : Nat
  fields : Doc

/-- The entry order as a relation, for ascending sorts. -/
def entryLeP (a b : Entry) : Prop := entryLeB a b = true

/-- The reversed entry order, for descending sorts. -/
def entryGeP (a b : Entry) : Prop := entryLeB b a = true

instance : DecidableRel entryLeP :=
  fun a b => inferInstanceAs (Decidable (entryLeB a b = true))

instance : DecidableRel entryGeP :=
  fun a b => inferInstanceAs (Decidable (entryLeB b a = true))

/-- Modelled from the spec: step 2 of `evaluate` — collect the index entries
whose key passes the filter (section 4.3). -/
def collectEntries (s : Store) (q : Query) : List Entry :=
  s.index.filter (fun e => filtMatches q.filt e.key)

/-- Modelled from the spec: step 3 of `evaluate` — sort the collected entries
by key, ascending by default and descending if requested, ties between equal
keys broken by identifier (section 4.3). -/
def sortEntries (desc : Bool) (l : List Entry) : List Entry :=
  if desc then l.insertionSort entryGeP else l.insertionSort entryLeP

/-- Modelled from the spec: step 4 of `evaluate` — resolve each identifier to
its current document, defensively dropping identifiers whose document has
since been deleted (section 4.3). -/
def resolveEntries (s : Store) (l : List Entry) : List QRes :=
  l.filterMap (fun e =>
    match getLive s e.docId with
    | some sd => some ⟨e.key, e.docId, sd.rev, sd.fields⟩
    | none => none)

/-- Modelled from the spec: step 5 of `evaluate` — apply the limit, if any,
after sorting (section 4.3). -/
def applyLimit : Option Nat → List QRes → List QRes
  | none, l => l
  | some n, l => l.take n

/-- Modelled from the spec: the query engine's `evaluate` — look the index up
by name (failing with `UnknownIndex`), collect, sort, resolve, and apply the
limit (section 4.3). -/
def evaluate (s : Store) (q : Query) : Except Err (List QRes) :=
  if q.index = s.idxName then
    .ok (applyLimit q.limit (resolveEntries s (sortEntries q.descending (collectEntries s q))))
  else .error .unknownIndex

/-- Modelled from the spec: `evaluate` with the store state passed through
explicitly — queries only read the store and never mutate it (section 5). -/
def evaluateSt (s : Store) (q : Query) : Except Err (List QRes) × Store :=
  (evaluate s q, s)

/-- Modelled from the spec: the index-delta event a change emits — index name,
keys added and keys removed (section 4.2). -/
structure Delta where
  index : String
  added : List IKey
  removed : List IKey

/-- The delta produced by a change event: the new document's keys are added,
the document's prior entries are removed. -/
def changeDelta (rule : Doc → List IKey) (s : Store) (id : String)
    (newDoc : Option Doc) : Delta :=
  ⟨s.idxName, ruleKeys rule newDoc, entriesFor s id⟩

/-- Modelled from the spec: overlap between a delta and a descriptor — the
index name matches and the filter, when present, intersects the delta's
added-or-removed key set (section 4.4). -/
def overlaps (d : Delta) (q : Query) : Bool :=
  d.index == q.index &&
    match q.filt with
    | none => true
    | some f => (d.added ++ d.removed).any (fun k => filtMatches (some f) k)

/-- Modelled from the spec: a live subscription — a descriptor together with
the identifiers and revisions of the last delivered result (sections 3, 4.4). -/
structure Subscription where
  q : Query
  last : List (String × Nat)

/-- The ordered sequence of identifiers and revisions of a result. -/
def idsRevs (r : List QRes) : List (String × Nat) := r.map (fun x => (x.docId, x.rev))

/-- Modelled from the spec: the subscription manager's reaction to one
index-delta event for one subscription — skip it when the delta does not
overlap, re-evaluate otherwise, and skip delivery when the new result is
identical (same ordered identifiers and revisions) to the last delivered one
(section 4.4). -/
def notifySub (s : Store) (d : Delta) (sub : Subscription) :
    Subscription × Option (List QRes) :=
  if overlaps d sub.q then
    match evaluate s sub.q with
    | .ok r =>
      if idsRevs r == sub.last then (sub, none)
      else ({ sub with last := idsRevs r }, some r)
    | .error _ => (sub, none)
  else (sub, none)

/-- Modelled from the spec: a draft session — the caller-supplied default
shape plus the current buffer (sections 3, 4.5). -/
structure Draft where
  defaults : Doc
  fields : Doc

/-- Modelled from the spec: `create` returns a buffer initialized with the
caller-supplied defaults (section 4.5). -/
def createDraft (defaults : Doc) : Draft := ⟨defaults, defaults⟩

/-- Sets one field of a document, replacing the first binding or appending. -/
def setField (d : Doc) (f : String) (v : Value) : Doc := alistSet d f v

/-- Modelled from the spec: shallow merge of partial fields into a document
(section 4.5). -/
def shallowMerge (base upd : Doc) : Doc :=
  upd.foldl (fun acc kv => setField acc kv.1 kv.2) base

/-- Modelled from the spec: `merge` shallow-merges partial fields into the
draft, never touching persisted storage (section 4.5). -/
def mergeDraft (d : Draft) (p : Doc) : Draft := { d with fields := shallowMerge d.fields p }

/-- Modelled from the spec: `submit` calls `put` with the draft's current
contents, then resets the draft to the original default shape; it fails with
whatever error `put` fails with (section 4.5). -/
def submitDraft (rule : Doc → List IKey) (d : Draft) (s : Store) :
    Except Err (String × Draft × Store) :=
  match putNew rule s d.fields with
  | (s2, .ok id) => .ok (id, ⟨d.defaults, d.defaults⟩, s2)
  | (_, .error e) => .error e

/-- The flashcard draft state of `useDocument` in the flashcard app: question,
answer, category and creation timestamp. -/
structure NewCard where
  question : String
  answer : String
  category : String
  createdAt : Int

/-- JavaScript `String.prototype.trim` on the character list: drop leading and
trailing whitespace. -/
def trimChars (l : List Char) : List Char :=
  ((l.dropWhile Char.isWhitespace).reverse.dropWhile Char.isWhitespace).reverse

/-- JavaScript `String.prototype.trim` on strings. -/
def jsTrim (s : String) : String := String.mk (trimChars s.data)

/-- The flashcard draft as a document, as `submitNewCard` would persist it. -/
def cardDoc (nc : NewCard) : Doc :=
  [("question", .str nc.question), ("answer", .str nc.answer),
   ("category", .str nc.category), ("createdAt", .num nc.createdAt)]

/-- The guard of `handleCreateCard` (source lines 35-37): the draft is
submitted only when question, answer and category are all truthy after
trimming. -/
def submitsCard (nc : NewCard) : Bool :=
  jsTrim nc.question != "" && (jsTrim nc.answer != "" && jsTrim nc.category != "")

/-- The form-submission handler `handleCreateCard` (source lines 33-38): when
the guard passes, the draft's contents are persisted through `put`; otherwise
nothing happens. -/
def handleCreateCard (rule : Doc → List IKey) (nc : NewCard) (s : Store) : Store :=
  if submitsCard nc then (putNew rule s (cardDoc nc)).1 else s

/-- The `handleNextCard` handler (source lines 40-47): advance, looping back
to the first card from the last. -/
def handleNextCard (currentIndex len : Nat) : Nat :=
  if currentIndex < len - 1 then currentIndex + 1 else 0

/-- The `handlePrevCard` handler (source lines 49-56): go back, looping to the
last card from the first. -/
def handlePrevCard (currentIndex len : Nat) : Nat :=
  if currentIndex > 0 then currentIndex - 1 else len - 1

/-- The `likes` field of a caption-response document: a record of caption keys
to booleans. -/
abbrev LikesMap := List (String × Bool)

/-- Record lookup on a likes mapping. -/
def lookupLike (m : LikesMap) (key : String) : Option Bool := alistGet m key

/-- Record assignment on a likes mapping: overwrite the first binding with the
key, or append a fresh one. -/
def setLike (m : LikesMap) (key : String) (b : Bool) : LikesMap := alistSet m key b

/-- JavaScript `delete` of a key from a likes mapping. -/
def eraseLike (m : LikesMap) (key : String) : LikesMap := alistDrop m key

/-- The per-caption like key `caption-${index}` (source line 333). -/
def likeKey (i : Nat) : String := "caption-" ++ toString i

/-- The `toggleLike` handler's update of the `likes` field (source lines
331-343): when the per-caption key is truthy it is deleted, otherwise it is
set to `true` (creating the record if the field was absent). -/
def toggleLike (likes : Option LikesMap) (i : Nat) : LikesMap :=
  match likes with
  | some m =>
    if lookupLike m (likeKey i) = some true then eraseLike m (likeKey i)
    else setLike m (likeKey i) true
  | none => setLike [] (likeKey i) true

/-- The flashcard app's extraction rule `(doc) => doc.category` (source line
20): emit the category field as a key when it is a string; documents without a
string category contribute no keys (the designed no-op of section 4.2). -/
def categoryRule (d : Doc) : List IKey :=
  match lookupField d "category" with
  | some (.str s) => [.str s]
  | _ => []

/-- The index-consistency invariant: the index entry set held for every
identifier is exactly what the extraction rule produces from that document's
current revision, and is empty for absent or deleted documents. -/
def Inv (rule : Doc → List IKey) (s : Store) : Prop :=
  ∀ id, entriesFor s id = keysCurrent rule s id

/-- The order the rows of a query result are expected to obey: the entry
order for ascending sorts, its reverse for descending ones. -/
def resRel (desc : Bool) (x y : QRes) : Prop :=
  if desc then entryLeB ⟨y.key, y.docId⟩ ⟨x.key, x.docId⟩ = true
  else entryLeB ⟨x.key, x.docId⟩ ⟨y.key, y.docId⟩ = true

/-- A concrete flashcard, for exercising the theorems on closed inputs. -/
def demoCard : NewCard := ⟨"q", "a", "Math", 0⟩

/-- A second concrete flashcard with a different category. -/
def demoCard2 : NewCard := ⟨"q2", "a2", "Hist", 0⟩

/-- The first flashcard re-categorised, for exercising updates. -/
def demoCardSci : NewCard := ⟨"q", "a", "Sci", 0⟩

/-- A concrete run: two inserts, one update, one delete. -/
def demoOps : List Op :=
  [Op.opNew (cardDoc demoCard), Op.opNew (cardDoc demoCard2),
   Op.opPut "id-0" (cardDoc demoCardSci), Op.opDel "id-1"]

/-- The store the concrete run produces. -/
def demoStore : Store := applyOps categoryRule (emptyStore "byCat") demoOps

/-- The store holding just the first flashcard. -/
def demoStore1 : Store :=
  applyOps categoryRule (emptyStore "byCat") [Op.opNew (cardDoc demoCard)]

/-- The store holding both flashcards, live. -/
def demoStore2 : Store :=
  applyOps categoryRule (emptyStore "byCat")
    [Op.opNew (cardDoc demoCard), Op.opNew (cardDoc demoCard2)]

/-- The unfiltered ascending query over the category index. -/
def demoQuery : Query := ⟨"byCat", none, false, none⟩

/-- What the unfiltered ascending query returns on the two-card store. -/
def demoResult : List QRes :=
  [⟨.str "Hist", "id-1", 1, cardDoc demoCard2⟩, ⟨.str "Math", "id-0", 1, cardDoc demoCard⟩]

/-- The flashcard form's default shape: blank fields plus a timestamp. -/
def demoDefaults : Doc := cardDoc ⟨"", "", "", 0⟩

/-- A draft composed by merging the first flashcard into the defaults. -/
def demoDraft : Draft := mergeDraft (createDraft demoDefaults) (cardDoc demoCard)

/-- A delta touching only the key `Zzz` of the category index. -/
def demoDelta : Delta := ⟨"byCat", [.str "Zzz"], []⟩

/-- A subscription filtered to the exact key `Hist`, nothing delivered yet. -/
def demoSub : Subscription := ⟨⟨"byCat", some (.exact (.str "Hist")), false, none⟩, []⟩

/-! ### The key and entry orders are total, transitive and antisymmetric -/

theorem charToNat_inj {a b : Char} (h : a.toNat = b.toNat) : a = b := by
  apply Char.ext
  apply UInt32.ext
  exact h

theorem listLeB_total (as bs : List Char) : listLeB as bs = true ∨ listLeB bs as = true := by
  induction as generalizing bs with
  | nil => exact Or.inl rfl
  | cons a as ih =>
    cases bs with
    | nil => exact Or.inr rfl
    | cons b bs =>
      by_cases h : a.toNat = b.toNat
      · simp only [listLeB]
        rw [if_pos h, if_pos h.symm]
        exact ih bs
      · have h2 : ¬ b.toNat = a.toNat := fun e => h e.symm
        simp only [listLeB]
        rw [if_neg h, if_neg h2]
        simp only [decide_eq_true_eq]
        omega

theorem listLeB_trans {as bs cs : List Char} (h1 : listLeB as bs = true)
    (h2 : listLeB bs cs = true) : listLeB as cs = true := by
  induction as generalizing bs cs with
  | nil => rfl
  | cons a as ih =>
    cases bs with
    | nil => simp [listLeB] at h1
    | cons b bs =>
      cases cs with
      | nil => simp [listLeB] at h2
      | cons c cs =>
        by_cases hab : a.toNat = b.toNat <;> by_cases hbc : b.toNat = c.toNat
        · have hac : a.toNat = c.toNat := hab.trans hbc
          simp only [listLeB, hab, hbc, hac, if_true] at h1 h2 ⊢
          exact ih h1 h2
        · have hac : ¬ a.toNat = c.toNat := by rw [hab]; exact hbc
          simp only [listLeB, hab, hbc, hac, if_true, if_false, decide_eq_true_eq] at h2 ⊢
          omega
        · have hac : ¬ a.toNat = c.toNat := by rw [← hbc]; exact hab
          simp only [listLeB, hab, hbc, hac, if_true, if_false, decide_eq_true_eq] at h1 ⊢
          omega
        · simp only [listLeB, hab, hbc, if_false, decide_eq_true_eq] at h1 h2
          by_cases hac : a.toNat = c.toNat
          · omega
          · simp only [listLeB, hac, if_false, decide_eq_true_eq]
            omega

theorem listLeB_antisymm {as bs : List Char} (h1 : listLeB as bs = true)
    (h2 : listLeB bs as = true) : as = bs := by
  induction as generalizing bs with
  | nil =>
    cases bs with
    | nil => rfl
    | cons b bs => simp [listLeB] at h2
  | cons a as ih =>
    cases bs with
    | nil => simp [listLeB] at h1
    | cons b bs =>
      by_cases h : a.toNat = b.toNat
      · have hc : a = b := charToNat_inj h
        simp only [listLeB] at h1 h2
        rw [if_pos h] at h1
        rw [if_pos h.symm] at h2
        rw [hc, ih h1 h2]
      · have h2' : ¬ b.toNat = a.toNat := fun e => h e.symm
        simp only [listLeB] at h1 h2
        rw [if_neg h] at h1
        rw [if_neg h2'] at h2
        simp only [decide_eq_true_eq] at h1 h2
        omega

theorem strLeB_total (a b : String) : strLeB a b = true ∨ strLeB b a = true :=
  listLeB_total a.data b.data

theorem strLeB_trans {a b c : String} (h1 : strLeB a b = true) (h2 : strLeB b c = true) :
    strLeB a c = true :=
  listLeB_trans h1 h2

theorem strLeB_antisymm {a b : String} (h1 : strLeB a b = true) (h2 : strLeB b a = true) :
    a = b := by
  cases a with
  | mk da =>
    cases b with
    | mk db => exact congrArg String.mk (listLeB_antisymm h1 h2)

theorem keyLeB_total (a b : IKey) : keyLeB a b = true ∨ keyLeB b a = true := by
  cases a with
  | num m =>
    cases b with
    | num n =>
      simp only [keyLeB, decide_eq_true_eq]
      omega
    | str t => exact Or.inl rfl
  | str s =>
    cases b with
    | num n => exact Or.inr rfl
    | str t => exact strLeB_total s t

theorem keyLeB_trans {a b c : IKey} (h1 : keyLeB a b = true) (h2 : keyLeB b c = true) :
    keyLeB a c = true := by
  cases a with
  | num m =>
    cases b with
    | num n =>
      cases c with
      | num p =>
        simp only [keyLeB, decide_eq_true_eq] at h1 h2 ⊢
        omega
      | str t => rfl
    | str t =>
      cases c with
      | num p => exact absurd h2 (by simp [keyLeB])
      | str u => rfl
  | str s =>
    cases b with
    | num n => exact absurd h1 (by simp [keyLeB])
    | str t =>
      cases c with
      | num p => exact absurd h2 (by simp [keyLeB])
      | str u => exact strLeB_trans h1 h2

theorem keyLeB_antisymm {a b : IKey} (h1 : keyLeB a b = true) (h2 : keyLeB b a = true) :
    a = b := by
  cases a with
  | num m =>
    cases b with
    | num n =>
      simp only [keyLeB, decide_eq_true_eq] at h1 h2
      have h3 : m = n := by omega
      rw [h3]
    | str t => exact absurd h2 (by simp [keyLeB])
  | str s =>
    cases b with
    | num n => exact absurd h1 (by simp [keyLeB])
    | str t => rw [strLeB_antisymm h1 h2]

theorem entryLeB_total (a b : Entry) : entryLeB a b = true ∨ entryLeB b a = true := by
  by_cases h : a.key = b.key
  · simp only [entryLeB]
    rw [if_pos h, if_pos h.symm]
    exact strLeB_total _ _
  · have h2 : ¬ b.key = a.key := fun e => h e.symm
    simp only [entryLeB]
    rw [if_neg h, if_neg h2]
    exact keyLeB_total _ _

theorem entryLeB_trans {a b c : Entry} (h1 : entryLeB a b = true)
    (h2 : entryLeB b c = true) : entryLeB a c = true := by
  by_cases hab : a.key = b.key <;> by_cases hbc : b.key = c.key
  · have hac : a.key = c.key := hab.trans hbc
    simp only [entryLeB] at h1 h2 ⊢
    rw [if_pos hab] at h1
    rw [if_pos hbc] at h2
    rw [if_pos hac]
    exact strLeB_trans h1 h2
  · have hac : ¬ a.key = c.key := by rw [hab]; exact hbc
    simp only [entryLeB] at h2 ⊢
    rw [if_neg hbc] at h2
    rw [if_neg hac, hab]
    exact h2
  · have hac : ¬ a.key = c.key := by rw [← hbc]; exact hab
    simp only [entryLeB] at h1 ⊢
    rw [if_neg hab] at h1
    rw [if_neg hac, ← hbc]
    exact h1
  · simp only [entryLeB] at h1 h2
    rw [if_neg hab] at h1
    rw [if_neg hbc] at h2
    by_cases hac : a.key = c.key
    · exfalso
      rw [hac] at h1
      exact hbc (keyLeB_antisymm h2 h1)
    · simp only [entryLeB]
      rw [if_neg hac]
      exact keyLeB_trans h1 h2

instance : IsTotal Entry entryLeP := ⟨entryLeB_total⟩

instance : IsTrans Entry entryLeP := ⟨fun _ _ _ => entryLeB_trans⟩

instance : IsTotal Entry entryGeP := ⟨fun a b => (entryLeB_total b a)⟩

instance : IsTrans Entry entryGeP := ⟨fun _ _ _ h1 h2 => entryLeB_trans h2 h1⟩

/-! ### Association-list lemmas -/

theorem alistGet_alistSet {α : Type} (l : List (String × α)) (key k : String) (v : α) :
    alistGet (alistSet l key v) k = if k = key then some v else alistGet l k := by
  induction l with
  | nil =>
    by_cases h : k = key
    · rw [if_pos h, h]
      simp [alistSet, alistGet]
    · have h2 : ¬ key = k := fun e => h e.symm
      rw [if_neg h]
      simp [alistSet, alistGet, h2]
  | cons kv rest ih =>
    obtain ⟨k1, w⟩ := kv
    by_cases h1 : k1 = key <;> by_cases h2 : k = key <;> by_cases h3 : k1 = k <;>
      simp_all [alistSet, alistGet]

theorem alistGet_alistDrop {α : Type} (m : List (String × α)) (key k : String) :
    alistGet (alistDrop m key) k = if k = key then none else alistGet m k := by
  induction m with
  | nil => by_cases h : k = key <;> simp [alistDrop, alistGet, h]
  | cons kv rest ih =>
    obtain ⟨k1, w⟩ := kv
    by_cases h1 : k1 = key <;> by_cases h2 : k = key <;> by_cases h3 : k1 = k <;>
      simp_all [alistDrop, alistGet, List.filter_cons]

/-! ### Index-builder consistency (claim C1 machinery) -/

theorem entriesForIdx_append (l1 l2 : List Entry) (id : String) :
    entriesForIdx (l1 ++ l2) id = entriesForIdx l1 id ++ entriesForIdx l2 id := by
  simp [entriesForIdx, List.filter_append]

theorem entriesForIdx_removed (idx : List Entry) (id : String) :
    entriesForIdx (idx.filter (fun e => e.docId != id)) id = [] := by
  induction idx with
  | nil => rfl
  | cons e rest ih =>
    by_cases h : e.docId = id <;> simp_all [entriesForIdx, List.filter_cons]

theorem entriesForIdx_removed_other (idx : List Entry) (id id2 : String) (h : id2 ≠ id) :
    entriesForIdx (idx.filter (fun e => e.docId != id)) id2 = entriesForIdx idx id2 := by
  induction idx with
  | nil => rfl
  | cons e rest ih =>
    by_cases h2 : e.docId = id <;> by_cases h3 : e.docId = id2 <;>
      simp_all [entriesForIdx, List.filter_cons]

theorem entriesForIdx_new (ks : List IKey) (id id2 : String) :
    entriesForIdx (ks.map (fun kk => (⟨kk, id⟩ : Entry))) id2 = if id2 = id then ks else [] := by
  induction ks with
  | nil => by_cases h : id2 = id <;> simp [entriesForIdx, h]
  | cons kk ks ih =>
    by_cases h : id2 = id
    · subst h
      simp_all [entriesForIdx, List.filter_cons]
    · have h2 : ¬ id = id2 := fun e => h e.symm
      simp_all [entriesForIdx, List.filter_cons]

theorem entriesForIdx_applyChange (rule : Doc → List IKey) (idx : List Entry)
    (id id2 : String) (nd : Option Doc) :
    entriesForIdx (applyChange rule idx id nd) id2 =
      if id2 = id then ruleKeys rule nd else entriesForIdx idx id2 := by
  unfold applyChange
  rw [entriesForIdx_append, entriesForIdx_new]
  by_cases h : id2 = id
  · rw [if_pos h, if_pos h, h, entriesForIdx_removed]
    simp
  · rw [if_neg h, if_neg h, entriesForIdx_removed_other _ _ _ h]
    simp

theorem Inv_update_put (rule : Doc → List IKey) (s : Store) (id : String) (f : Doc)
    (rv n : Nat) (hInv : Inv rule s) :
    Inv rule { s with docs := setDoc s.docs id ⟨f, rv, false⟩, nextId := n,
                      index := applyChange rule s.index id (some f) } := by
  intro id2
  unfold entriesFor keysCurrent getLive lookupDoc setDoc
  dsimp only
  rw [entriesForIdx_applyChange, alistGet_alistSet]
  by_cases h : id2 = id
  · rw [if_pos h, if_pos h]
    rfl
  · rw [if_neg h, if_neg h]
    exact hInv id2

theorem Inv_update_del (rule : Doc → List IKey) (s : Store) (id : String) (f : Doc)
    (rv : Nat) (hInv : Inv rule s) :
    Inv rule { s with docs := setDoc s.docs id ⟨f, rv, true⟩,
                      index := applyChange rule s.index id none } := by
  intro id2
  unfold entriesFor keysCurrent getLive lookupDoc setDoc
  dsimp only
  rw [entriesForIdx_applyChange, alistGet_alistSet]
  by_cases h : id2 = id
  · rw [if_pos h, if_pos h]
    rfl
  · rw [if_neg h, if_neg h]
    exact hInv id2

theorem Inv_applyOp (rule : Doc → List IKey) (s : Store) (op : Op) (h : Inv rule s) :
    Inv rule (applyOp rule s op) := by
  cases op with
  | opNew f =>
    simp only [applyOp]
    unfold putNew
    by_cases hs : s.storageOk
    · rw [if_pos hs]
      exact Inv_update_put rule s _ f 1 _ h
    · rw [if_neg hs]
      exact h
  | opPut id f =>
    simp only [applyOp]
    unfold putExisting
    cases hl : lookupDoc s.docs id with
    | none =>
      simp only [hl]
      by_cases hs : s.storageOk
      · rw [if_pos hs]
        exact Inv_update_put rule s id f 1 s.nextId h
      · rw [if_neg hs]
        exact h
    | some sd =>
      simp only [hl]
      by_cases hd : sd.deleted
      · rw [if_pos hd]
        exact h
      · rw [if_neg hd]
        by_cases hs : s.storageOk
        · rw [if_pos hs]
          exact Inv_update_put rule s id f (sd.rev + 1) s.nextId h
        · rw [if_neg hs]
          exact h
  | opDel id =>
    simp only [applyOp]
    unfold deleteDoc
    cases hl : lookupDoc s.docs id with
    | none =>
      simp only [hl]
      exact h
    | some sd =>
      simp only [hl]
      by_cases hd : sd.deleted
      · rw [if_pos hd]
        exact h
      · rw [if_neg hd]
        by_cases hs : s.storageOk
        · rw [if_pos hs]
          exact Inv_update_del rule s id sd.fields (sd.rev + 1) h
        · rw [if_neg hs]
          exact h

theorem Inv_applyOps (rule : Doc → List IKey) (ops : List Op) (s : Store)
    (h : Inv rule s) : Inv rule (applyOps rule s ops) := by
  induction ops generalizing s with
  | nil => exact h
  | cons op ops ih => exact ih (applyOp rule s op) (Inv_applyOp rule s op h)

theorem Inv_emptyStore (rule : Doc → List IKey) (name : String) :
    Inv rule (emptyStore name) := fun _ => rfl

/-- C1: after every sequence of `put`/`delete` operations starting from the
empty store, the index builder's entry set for each document equals exactly
the keys the extraction rule produces from that document's current revision —
empty if the document is deleted or absent — and no index entry references a
deleted or nonexistent document. -/
theorem index_matches_current_revision (rule : Doc → List IKey) (name : String)
    (ops : List Op) (id : String) :
    entriesFor (applyOps rule (emptyStore name) ops) id
      = keysCurrent rule (applyOps rule (emptyStore name) ops) id
    ∧ ∀ e ∈ (applyOps rule (emptyStore name) ops).index,
        (getLive (applyOps rule (emptyStore name) ops) e.docId).isSome = true := by
  have hInv : Inv rule (applyOps rule (emptyStore name) ops) :=
    Inv_applyOps rule ops (emptyStore name) (Inv_emptyStore rule name)
  refine ⟨hInv id, ?_⟩
  intro e he
  have hk : e.key ∈ entriesFor (applyOps rule (emptyStore name) ops) e.docId := by
    unfold entriesFor entriesForIdx
    exact List.mem_map_of_mem _ (List.mem_filter.mpr ⟨he, by simp⟩)
  rw [hInv e.docId] at hk
  unfold keysCurrent at hk
  cases hg : getLive (applyOps rule (emptyStore name) ops) e.docId with
  | some sd => rfl
  | none =>
    rw [hg] at hk
    simp at hk

/-- Witness for C1: in the concrete run the surviving entry is the updated
category of the first card, and its document is live. -/
theorem index_matches_current_revision_witness :
    (⟨.str "Sci", "id-0"⟩ : Entry) ∈ demoStore.index
    ∧ (entriesFor demoStore "id-0" = keysCurrent categoryRule demoStore "id-0"
        ∧ (getLive demoStore "id-0").isSome = true) :=
  ⟨by decide,
    (index_matches_current_revision categoryRule "byCat" demoOps "id-0").1,
    (index_matches_current_revision categoryRule "byCat" demoOps "id-0").2
      ⟨.str "Sci", "id-0"⟩ (by decide)⟩

/-- C3: evaluating a query twice with no intervening writes yields two
identical ordered result lists, and evaluation returns the store unchanged
(deterministic and read-only). -/
theorem evaluate_deterministic_readonly (s : Store) (q : Query) :
    (evaluateSt s q).2 = s ∧ (evaluateSt (evaluateSt s q).2 q).1 = (evaluateSt s q).1 :=
  ⟨rfl, rfl⟩

theorem isSome_after_set (l : List (String × StoredDoc)) (id id2 : String) (d : StoredDoc)
    (h : (alistGet l id).isSome = true) :
    (alistGet (alistSet l id2 d) id).isSome = true := by
  rw [alistGet_alistSet]
  by_cases h2 : id = id2
  · rw [if_pos h2]
    rfl
  · rw [if_neg h2]
    exact h

/-- C4: an identifier present in the table stays present across every
operation (identifiers are never renamed or dropped once assigned), and a
successful `put` on an existing live identifier, or a successful `delete`,
stores the document at exactly the old revision plus 1. -/
theorem identifier_stable_revision_increment (rule : Doc → List IKey) (s : Store) :
    (∀ op id, (lookupDoc s.docs id).isSome = true →
        (lookupDoc (applyOp rule s op).docs id).isSome = true)
    ∧ (∀ id f s2 sd, lookupDoc s.docs id = some sd → sd.deleted = false →
        putExisting rule s id f = (s2, none) →
        lookupDoc s2.docs id = some ⟨f, sd.rev + 1, false⟩)
    ∧ (∀ id s2 sd, lookupDoc s.docs id = some sd → sd.deleted = false →
        deleteDoc rule s id = (s2, none) →
        lookupDoc s2.docs id = some ⟨sd.fields, sd.rev + 1, true⟩) := by
  refine ⟨?_, ?_, ?_⟩
  · intro op id hsome
    cases op with
    | opNew f =>
      simp only [applyOp]
      unfold putNew
      by_cases hs : s.storageOk
      · rw [if_pos hs]
        exact isSome_after_set s.docs id (mintId s.nextId) _ hsome
      · rw [if_neg hs]
        exact hsome
    | opPut id2 f =>
      simp only [applyOp]
      unfold putExisting
      cases hl : lookupDoc s.docs id2 with
      | none =>
        simp only [hl]
        by_cases hs : s.storageOk
        · rw [if_pos hs]
          exact isSome_after_set s.docs id id2 _ hsome
        · rw [if_neg hs]
          exact hsome
      | some sd =>
        simp only [hl]
        by_cases hd : sd.deleted
        · rw [if_pos hd]
          exact hsome
        · rw [if_neg hd]
          by_cases hs : s.storageOk
          · rw [if_pos hs]
            exact isSome_after_set s.docs id id2 _ hsome
          · rw [if_neg hs]
            exact hsome
    | opDel id2 =>
      simp only [applyOp]
      unfold deleteDoc
      cases hl : lookupDoc s.docs id2 with
      | none =>
        simp only [hl]
        exact hsome
      | some sd =>
        simp only [hl]
        by_cases hd : sd.deleted
        · rw [if_pos hd]
          exact hsome
        · rw [if_neg hd]
          by_cases hs : s.storageOk
          · rw [if_pos hs]
            exact isSome_after_set s.docs id id2 _ hsome
          · rw [if_neg hs]
            exact hsome
  · intro id f s2 sd hl hd hput
    unfold putExisting at hput
    simp only [hl, hd, Bool.false_eq_true, if_false] at hput
    by_cases hs : s.storageOk
    · rw [if_pos hs] at hput
      simp only [Prod.mk.injEq] at hput
      rw [← hput.1]
      show alistGet (alistSet s.docs id ⟨f, sd.rev + 1, false⟩) id = _
      rw [alistGet_alistSet, if_pos rfl]
    · rw [if_neg hs] at hput
      simp only [Prod.mk.injEq] at hput
      exact absurd hput.2 (by simp)
  · intro id s2 sd hl hd hdel
    unfold deleteDoc at hdel
    simp only [hl, hd, Bool.false_eq_true, if_false] at hdel
    by_cases hs : s.storageOk
    · rw [if_pos hs] at hdel
      simp only [Prod.mk.injEq] at hdel
      rw [← hdel.1]
      show alistGet (alistSet s.docs id ⟨sd.fields, sd.rev + 1, true⟩) id = _
      rw [alistGet_alistSet, if_pos rfl]
    · rw [if_neg hs] at hdel
      simp only [Prod.mk.injEq] at hdel
      exact absurd hdel.2 (by simp)

/-- Witness for C4: updating the stored first card bumps its revision from 1
to exactly 2. -/
theorem identifier_stable_revision_increment_witness :
    lookupDoc demoStore1.docs "id-0" = some ⟨cardDoc demoCard, 1, false⟩
    ∧ (⟨cardDoc demoCard, 1, false⟩ : StoredDoc).deleted = false
    ∧ putExisting categoryRule demoStore1 "id-0" (cardDoc demoCardSci)
        = ((putExisting categoryRule demoStore1 "id-0" (cardDoc demoCardSci)).1, none)
    ∧ lookupDoc (putExisting categoryRule demoStore1 "id-0" (cardDoc demoCardSci)).1.docs "id-0"
        = some ⟨cardDoc demoCardSci, 2, false⟩ :=
  ⟨rfl, rfl, rfl,
    (identifier_stable_revision_increment categoryRule demoStore1).2.1 "id-0"
      (cardDoc demoCardSci) _ _ rfl rfl rfl⟩

/-- C6: deleting an identifier that is absent or already deleted fails with
`NotFound` and returns the store unchanged — document table and index both
untouched. -/
theorem delete_absent_fails_notFound (rule : Doc → List IKey) (s : Store) (id : String)
    (h : getLive s id = none) :
    deleteDoc rule s id = (s, some Err.notFound) := by
  unfold getLive at h
  unfold deleteDoc
  cases hl : lookupDoc s.docs id with
  | none => simp only [hl]
  | some sd =>
    simp only [hl] at h ⊢
    by_cases hd : sd.deleted
    · rw [if_pos hd]
    · rw [if_neg hd] at h
      exact absurd h (by simp)

/-- Witness for C6: deleting a never-created identifier reports `NotFound`
and hands back the empty store unchanged. -/
theorem delete_absent_fails_notFound_witness :
    getLive (emptyStore "byCat") "nope" = none
    ∧ deleteDoc categoryRule (emptyStore "byCat") "nope"
        = (emptyStore "byCat", some Err.notFound) :=
  ⟨rfl, delete_absent_fails_notFound categoryRule (emptyStore "byCat") "nope" rfl⟩

/-! ### Query-engine lemmas (claim C2 machinery) -/

theorem pairwise_resolve (s : Store) (l : List Entry) (R : Entry → Entry → Prop)
    (h : List.Pairwise R l) :
    List.Pairwise (fun x y => R ⟨x.key, x.docId⟩ ⟨y.key, y.docId⟩) (resolveEntries s l) := by
  unfold resolveEntries
  rw [List.pairwise_filterMap]
  refine h.imp ?_
  intro a b hab x hx y hy
  cases hga : getLive s a.docId with
  | none =>
    rw [hga] at hx
    simp at hx
  | some sd =>
    rw [hga] at hx
    simp at hx
    cases hgb : getLive s b.docId with
    | none =>
      rw [hgb] at hy
      simp at hy
    | some sd2 =>
      rw [hgb] at hy
      simp at hy
      rw [← hx, ← hy]
      exact hab

theorem resolve_sound (s : Store) (l : List Entry) (x : QRes)
    (hx : x ∈ resolveEntries s l) :
    (⟨x.key, x.docId⟩ : Entry) ∈ l ∧ (getLive s x.docId).isSome = true := by
  unfold resolveEntries at hx
  rw [List.mem_filterMap] at hx
  obtain ⟨e, he, hfe⟩ := hx
  cases hg : getLive s e.docId with
  | none =>
    rw [hg] at hfe
    simp at hfe
  | some sd =>
    rw [hg] at hfe
    simp at hfe
    rw [← hfe]
    refine ⟨he, ?_⟩
    rw [hg]
    rfl

theorem resolve_complete (s : Store) (l : List Entry) (e : Entry) (sd : StoredDoc)
    (he : e ∈ l) (hg : getLive s e.docId = some sd) :
    (⟨e.key, e.docId, sd.rev, sd.fields⟩ : QRes) ∈ resolveEntries s l := by
  unfold resolveEntries
  rw [List.mem_filterMap]
  exact ⟨e, he, by rw [hg]⟩

theorem mem_sortEntries (desc : Bool) (l : List Entry) (e : Entry) :
    e ∈ sortEntries desc l ↔ e ∈ l := by
  cases desc with
  | false =>
    simp only [sortEntries, Bool.false_eq_true, if_false]
    exact (List.perm_insertionSort entryLeP l).mem_iff
  | true =>
    simp only [sortEntries, if_true]
    exact (List.perm_insertionSort entryGeP l).mem_iff

theorem pairwise_applyLimit (lim : Option Nat) (R : QRes → QRes → Prop) (l : List QRes)
    (h : List.Pairwise R l) : List.Pairwise R (applyLimit lim l) := by
  cases lim with
  | none => exact h
  | some n => exact List.Pairwise.sublist (List.take_sublist n l) h

/-- C2: a successful evaluation applies the limit only after sorting; the
rows are sorted by key — ascending by default, descending when requested —
with ties between equal keys broken by document identifier; every row passes
the filter, comes from an index entry and resolves to a live document, so a
deleted document never appears; and with no limit every filtered live index
entry appears in the result. -/
theorem evaluate_sorted_filtered (s : Store) (q : Query) (r : List QRes)
    (h : evaluate s q = .ok r) :
    r = applyLimit q.limit (resolveEntries s (sortEntries q.descending (collectEntries s q)))
    ∧ List.Pairwise (resRel q.descending) r
    ∧ (∀ x ∈ r, (getLive s x.docId).isSome = true ∧ filtMatches q.filt x.key = true
        ∧ (⟨x.key, x.docId⟩ : Entry) ∈ s.index)
    ∧ (q.limit = none → ∀ e sd, e ∈ s.index → filtMatches q.filt e.key = true →
        getLive s e.docId = some sd → (⟨e.key, e.docId, sd.rev, sd.fields⟩ : QRes) ∈ r) := by
  unfold evaluate at h
  by_cases hn : q.index = s.idxName
  · rw [if_pos hn] at h
    injection h with h2
    have hr := h2.symm
    refine ⟨hr, ?_, ?_, ?_⟩
    · rw [hr]
      apply pairwise_applyLimit
      cases hdesc : q.descending with
      | false =>
        have hp := pairwise_resolve s (sortEntries false (collectEntries s q)) entryLeP
          (by simpa [sortEntries] using List.sorted_insertionSort entryLeP (collectEntries s q))
        refine hp.imp ?_
        intro a b hab
        simpa [resRel, entryLeP] using hab
      | true =>
        have hp := pairwise_resolve s (sortEntries true (collectEntries s q)) entryGeP
          (by simpa [sortEntries] using List.sorted_insertionSort entryGeP (collectEntries s q))
        refine hp.imp ?_
        intro a b hab
        simpa [resRel, entryGeP] using hab
    · intro x hx
      rw [hr] at hx
      have hx2 : x ∈ resolveEntries s (sortEntries q.descending (collectEntries s q)) := by
        cases hlim : q.limit with
        | none =>
          rw [hlim] at hx
          exact hx
        | some n =>
          rw [hlim] at hx
          exact (List.take_sublist n _).subset hx
      obtain ⟨hmem, hlive⟩ := resolve_sound s _ x hx2
      rw [mem_sortEntries] at hmem
      unfold collectEntries at hmem
      rw [List.mem_filter] at hmem
      exact ⟨hlive, hmem.2, hmem.1⟩
    · intro hlim e sd he hf hg
      rw [hr, hlim]
      exact resolve_complete s _ e sd
        ((mem_sortEntries q.descending _ e).mpr (List.mem_filter.mpr ⟨he, hf⟩)) hg
  · rw [if_neg hn] at h
    simp at h

/-- Witness for C2: on the two-card store the unfiltered ascending query
returns the `Hist` card before the `Math` card, in entry order. -/
theorem evaluate_sorted_filtered_witness :
    evaluate demoStore2 demoQuery = .ok demoResult
    ∧ List.Pairwise (resRel demoQuery.descending) demoResult :=
  ⟨rfl, (evaluate_sorted_filtered demoStore2 demoQuery demoResult rfl).2.1⟩

/-- C5: a successful submit is exactly a `put` of the draft's current fields
followed by a reset of the buffer to the original caller-supplied defaults —
not to an empty buffer — and a failing `put` makes submit fail with the same
error. -/
theorem submit_put_then_reset (rule : Doc → List IKey) (d : Draft) (s : Store) :
    (∀ id d2 s2, submitDraft rule d s = .ok (id, d2, s2) →
        putNew rule s d.fields = (s2, .ok id) ∧ d2.fields = d.defaults
          ∧ d2.defaults = d.defaults)
    ∧ (∀ e, (putNew rule s d.fields).2 = .error e → submitDraft rule d s = .error e) := by
  constructor
  · intro id d2 s2 hsub
    unfold submitDraft at hsub
    cases hp : putNew rule s d.fields with
    | mk s3 res =>
      simp only [hp] at hsub
      cases res with
      | ok id3 =>
        simp only [Except.ok.injEq, Prod.mk.injEq] at hsub
        obtain ⟨h1, h2, h4⟩ := hsub
        refine ⟨?_, ?_, ?_⟩
        · rw [← h1, ← h4]
        · rw [← h2]
        · rw [← h2]
      | error e => simp at hsub
  · intro e hp2
    unfold submitDraft
    cases hp : putNew rule s d.fields with
    | mk s3 res =>
      have hres : res = .error e := by
        rw [hp] at hp2
        exact hp2
      simp only [hp, hres]

/-- Witness for C5: submitting the composed flashcard draft persists the card
and hands back a buffer reset to the defaults. -/
theorem submit_put_then_reset_witness :
    submitDraft categoryRule demoDraft (emptyStore "byCat")
      = .ok ("id-0", (⟨demoDefaults, demoDefaults⟩ : Draft),
          (putNew categoryRule (emptyStore "byCat") demoDraft.fields).1)
    ∧ (putNew categoryRule (emptyStore "byCat") demoDraft.fields
        = ((putNew categoryRule (emptyStore "byCat") demoDraft.fields).1, .ok "id-0")
      ∧ (⟨demoDefaults, demoDefaults⟩ : Draft).fields = demoDraft.defaults
      ∧ (⟨demoDefaults, demoDefaults⟩ : Draft).defaults = demoDraft.defaults) :=
  ⟨rfl, (submit_put_then_reset categoryRule demoDraft (emptyStore "byCat")).1 "id-0" _ _ rfl⟩

/-- C7: a delivery is skipped when the write's index-delta does not overlap
the subscription's index name and key filter, and likewise when the
re-evaluated result carries the same ordered identifiers and revisions as the
last delivered one. -/
theorem no_delivery_without_overlap_or_change (s : Store) (d : Delta)
    (sub : Subscription) :
    (overlaps d sub.q = false → notifySub s d sub = (sub, none))
    ∧ (∀ r, evaluate s sub.q = .ok r → idsRevs r = sub.last →
        notifySub s d sub = (sub, none)) := by
  constructor
  · intro h
    unfold notifySub
    rw [h]
    simp
  · intro r he hsame
    unfold notifySub
    by_cases ho : overlaps d sub.q
    · rw [if_pos ho]
      simp only [he]
      simp [hsame]
    · rw [if_neg ho]

/-- Witness for C7: a write touching only the key `Zzz` does not overlap a
subscription filtered to `Hist`, so no delivery happens. -/
theorem no_delivery_without_overlap_or_change_witness :
    overlaps demoDelta demoSub.q = false
    ∧ notifySub demoStore2 demoDelta demoSub = (demoSub, none) :=
  ⟨rfl, (no_delivery_without_overlap_or_change demoStore2 demoDelta demoSub).1 rfl⟩

/-- C8: the flashcard form submits its draft only when question, answer and
category are all non-blank after trimming whitespace; with any blank field
the store is left untouched, and with all three non-blank the draft is
persisted through `put`. -/
theorem create_card_requires_nonblank (rule : Doc → List IKey) (nc : NewCard) (s : Store) :
    (submitsCard nc = true ↔ (jsTrim nc.question ≠ "" ∧ jsTrim nc.answer ≠ ""
        ∧ jsTrim nc.category ≠ ""))
    ∧ (submitsCard nc = false → handleCreateCard rule nc s = s)
    ∧ (submitsCard nc = true → handleCreateCard rule nc s = (putNew rule s (cardDoc nc)).1) := by
  refine ⟨?_, ?_, ?_⟩
  · simp [submitsCard, Bool.and_eq_true, bne_iff_ne]
  · intro h
    unfold handleCreateCard
    rw [h]
    simp
  · intro h
    unfold handleCreateCard
    rw [h]
    simp

/-- Witness for C8: a question of pure whitespace blocks the submit and
leaves the store unchanged. -/
theorem create_card_requires_nonblank_witness :
    submitsCard ⟨"   ", "a", "c", 0⟩ = false
    ∧ handleCreateCard categoryRule ⟨"   ", "a", "c", 0⟩ demoStore2 = demoStore2 :=
  ⟨rfl, (create_card_requires_nonblank categoryRule ⟨"   ", "a", "c", 0⟩ demoStore2).2.1 rfl⟩

/-- C9 counterexample: on a likes record binding the caption key to `false`,
toggling the like twice erases the binding instead of restoring the original
mapping, so the double toggle is not an involution as claimed. -/
theorem toggleLike_twice_not_original :
    lookupLike (toggleLike (some (toggleLike (some [("caption-0", false)]) 0)) 0) "caption-0"
      ≠ lookupLike [("caption-0", false)] "caption-0" := by decide

/-- C9 amended: toggling the same caption's like twice restores the original
likes mapping — the same value under every key — whenever the original does
not bind the caption key to an explicit `false`. -/
theorem toggleLike_twice_original (m : LikesMap) (i : Nat)
    (h : lookupLike m (likeKey i) ≠ some false) (k : String) :
    lookupLike (toggleLike (some (toggleLike (some m) i)) i) k = lookupLike m k := by
  simp only [lookupLike] at h ⊢
  cases hl : alistGet m (likeKey i) with
  | none =>
    have h1 : toggleLike (some m) i = alistSet m (likeKey i) true := by
      simp only [toggleLike, lookupLike, setLike]
      rw [hl]
      simp
    have h2 : alistGet (alistSet m (likeKey i) true) (likeKey i) = some true := by
      rw [alistGet_alistSet, if_pos rfl]
    have h3 : toggleLike (some (alistSet m (likeKey i) true)) i
        = alistDrop (alistSet m (likeKey i) true) (likeKey i) := by
      simp only [toggleLike, lookupLike, eraseLike]
      rw [h2]
      simp
    rw [h1, h3, alistGet_alistDrop]
    by_cases hk : k = likeKey i
    · rw [if_pos hk, hk, hl]
    · rw [if_neg hk, alistGet_alistSet, if_neg hk]
  | some b =>
    cases b with
    | false => exact absurd hl h
    | true =>
      have h1 : toggleLike (some m) i = alistDrop m (likeKey i) := by
        simp only [toggleLike, lookupLike, eraseLike]
        rw [hl]
        simp
      have h2 : alistGet (alistDrop m (likeKey i)) (likeKey i) = none := by
        rw [alistGet_alistDrop, if_pos rfl]
      have h3 : toggleLike (some (alistDrop m (likeKey i))) i
          = alistSet (alistDrop m (likeKey i)) (likeKey i) true := by
        simp only [toggleLike, lookupLike, setLike]
        rw [h2]
        simp
      rw [h1, h3, alistGet_alistSet]
      by_cases hk : k = likeKey i
      · rw [if_pos hk, hk, hl]
      · rw [if_neg hk, alistGet_alistDrop, if_neg hk]

/-- Witness for C9 amended: with the key bound to `true`, the double toggle
restores the binding. -/
theorem toggleLike_twice_original_witness :
    lookupLike [("caption-0", true)] (likeKey 0) ≠ some false
    ∧ lookupLike (toggleLike (some (toggleLike (some [("caption-0", true)]) 0)) 0) "caption-0"
        = lookupLike [("caption-0", true)] "caption-0" :=
  ⟨by decide, toggleLike_twice_original [("caption-0", true)] 0 (by decide) "caption-0"⟩

/-- C10: with a non-empty card list and a current index in range, both
navigation handlers land in range, `next` wraps from the last card to index 0
and `prev` wraps from index 0 to the last card. -/
theorem card_navigation_in_range_wraps (i len : Nat) (h0 : 0 < len) (hi : i < len) :
    handleNextCard i len < len ∧ handlePrevCard i len < len
    ∧ (i = len - 1 → handleNextCard i len = 0)
    ∧ (i = 0 → handlePrevCard i len = len - 1) := by
  unfold handleNextCard handlePrevCard
  refine ⟨?_, ?_, ?_, ?_⟩
  · split <;> omega
  · split <;> omega
  · intro h
    split <;> omega
  · intro h
    split <;> omega

/-- Witness for C10: on three cards at the last index, `next` wraps to 0 and
`prev` steps back in range. -/
theorem card_navigation_in_range_wraps_witness :
    0 < 3 ∧ 2 < 3 ∧ (handleNextCard 2 3 < 3 ∧ handlePrevCard 2 3 < 3
      ∧ (2 = 3 - 1 → handleNextCard 2 3 = 0) ∧ (2 = 0 → handlePrevCard 2 3 = 3 - 1)) :=
  ⟨by decide, by decide, card_navigation_in_range_wraps 2 3 (by decide) (by decide)⟩

end LiveStore
